import Mathlib

/-!
# Verification of the Composite filesystem serializer (main.cpp)

Shallow embedding of the `File`/`Directory` composite tree and of its
textual serialization protocol from `src/main.cpp` (the authoritative
variant; `src/gemini.cpp` contains only the tree model without the
serializer).  C++ `std::string` values are modelled as `List Char`,
`long long`/`int` as `Int` (the `stoi`/`stoll` range checks are modelled
explicitly), `size_t` positions as `Nat` with `npos = 2^64 - 1` and the
single relevant wrap-around `npos + 1 = 0` modelled by `succPos`.
-/

set_option maxHeartbeats 1000000

namespace FsSer

/-- `std::string::npos` (`size_t(-1)`). -/
def npos : Nat := 18446744073709551615

/-- `p + 1` in `size_t` arithmetic: `npos + 1` wraps to `0` (used by
`deserialize` at `data.find('|', first_pipe+1)` when `first_pipe == npos`).
All genuine positions are far below `npos`, where this is ordinary `+ 1`. -/
def succPos (p : Nat) : Nat := if p = npos then 0 else p + 1

/-- `std::string::substr(pos, count)`: the slice `[pos, pos+count)`, `count`
clamped to the string length.  (`substr` throws for `pos > size()`; every
call site in `Directory::deserialize` has `pos ≤ size()`, and the one place
where the C++ can actually throw — `File::deserialize` on input shorter
than 2 — is modelled explicitly there.) -/
def substr (s : List Char) (pos count : Nat) : List Char :=
  (s.drop pos).take count

/-- Index of the first element of the list satisfying `p`, if any. -/
def findIdxFrom (p : Char → Bool) : List Char → Option Nat
  | [] => none
  | c :: rest => if p c then some 0 else (findIdxFrom p rest).map (· + 1)

/-- `std::string::find(c, start)`: smallest index `≥ start` holding `c`,
else `npos`. -/
def cppFind (data : List Char) (c : Char) (start : Nat) : Nat :=
  match findIdxFrom (fun x => x == c) (data.drop start) with
  | some j => start + j
  | none => npos

/-- The characters accepted by `isspace` in the C locale (skipped by
`std::stoi`/`std::stoll` before the number). -/
def isSpaceChar (c : Char) : Bool :=
  c == ' ' || c == '\t' || c == '\n' || c == '\x0b' || c == '\x0c' || c == '\r'

/-- Longest all-digit prefix of the list. -/
def leadingDigits : List Char → List Char
  | [] => []
  | c :: rest => if c.isDigit then c :: leadingDigits rest else []

/-- Decimal value of a most-significant-first digit string. -/
def digitsToNat (ds : List Char) : Nat :=
  ds.foldl (fun a c => 10 * a + (c.toNat - 48)) 0

/-- Common model of `std::stoi` / `std::stoll`: skip `isspace` characters,
an optional single sign, then a non-empty run of decimal digits (anything
after the run is ignored).  No digit run → `std::invalid_argument`; value
outside `[lo, hi]` → `std::out_of_range`.  Both exceptions are modelled as
`.error ()`. -/
def cppStrtol (lo hi : Int) (s : List Char) : Except Unit Int :=
  let t := s.dropWhile isSpaceChar
  let neg := t.headD ' ' == '-'
  let t2 := if t.headD ' ' == '-' || t.headD ' ' == '+' then t.tail else t
  let ds := leadingDigits t2
  if ds = [] then .error ()
  else
    let v : Int := if neg then -(digitsToNat ds : Int) else (digitsToNat ds : Int)
    if v < lo ∨ hi < v then .error () else .ok v

/-- `std::stoi` (result range of `int`). -/
def cppStoi (s : List Char) : Except Unit Int :=
  cppStrtol (-2147483648) 2147483647 s

/-- `std::stoll` (result range of `long long`). -/
def cppStoll (s : List Char) : Except Unit Int :=
  cppStrtol (-9223372036854775808) 9223372036854775807 s

/-- The decimal digit character for `d < 10`. -/
def digitChar (d : Nat) : Char := Char.ofNat (48 + d)

/-- Decimal printing, most significant digit first (fuel-structured so that
it computes by `rfl`; `natToDigits` always supplies enough fuel). -/
def natToDigitsCore : Nat → Nat → List Char → List Char
  | 0, _, acc => acc
  | fuel+1, n, acc =>
    if n < 10 then digitChar n :: acc
    else natToDigitsCore fuel (n / 10) (digitChar (n % 10) :: acc)

/-- Decimal representation of a natural number, as `operator<<` prints it. -/
def natToDigits (n : Nat) : List Char := natToDigitsCore (n + 1) n []

/-- Decimal representation of a `long long`, as `operator<<` prints it. -/
def intToChars (s : Int) : List Char :=
  if s < 0 then '-' :: natToDigits (-s).toNat else natToDigits s.toNat

/-- The composite node: a `File` leaf (stored size) or a `Directory` with an
ordered list of owned children (`std::vector<FilesystemComponent*>`; the
vector never holds null pointers, see `addPtr`). -/
inductive FSNode where
  | file (name : String) (size : Int)
  | dir (name : String) (children : List FSNode)

/-- `Directory::add`: pushes the component only if the pointer is non-null
(`if (component) { children.push_back(component); }`).  The pointer-level
child list is modelled as `List (Option FSNode)` for this operation. -/
def addPtr (children : List (Option FSNode)) (c : Option FSNode) :
    List (Option FSNode) :=
  if c.isSome then children ++ [c] else children

mutual
/-- `File::getSize` returns the stored size; `Directory::getSize` sums the
children's sizes recursively (computed on each call, nothing stored). -/
def getSize : FSNode → Int
  | .file _ s => s
  | .dir _ cs => getSizeList cs

/-- The accumulation loop of `Directory::getSize` over the child vector. -/
def getSizeList : List FSNode → Int
  | [] => 0
  | c :: cs => getSize c + getSizeList cs
end

mutual
/-- `File::serialize` / `Directory::serialize`:
`"F|" + name + "|" + size` and
`"D|" + name + "|" + children.size() + "[" + children… + "]"`. -/
def serialize : FSNode → List Char
  | .file n s => 'F' :: '|' :: (n.data ++ '|' :: intToChars s)
  | .dir n cs =>
      'D' :: '|' :: (n.data ++ '|' ::
        (natToDigits cs.length ++ '[' :: (serializeList cs ++ [']'])))

/-- The child loop of `Directory::serialize`: concatenation of the
children's serializations in order, with no separator. -/
def serializeList : List FSNode → List Char
  | [] => []
  | c :: cs => serialize c ++ serializeList cs
end

/-- `File::deserialize(data)`: reads from `data.substr(2)` a name up to `'|'`
and then a size field, via two `std::getline` calls; only when both succeed
(the stream after position 2 contains a `'|'` with at least one character
after it) are `name` and then `size = stoll(size_str)` assigned — in that
order, so a throwing `stoll` escapes with the name already overwritten.
`data.substr(2)` itself throws `std::out_of_range` when `data.size() < 2`.
`.ok`/`.error` carry the `(name, size)` state of the object on normal
return / escaped exception. -/
def fileDeserialize (nm : String) (sz : Int) (data : List Char) :
    Except (String × Int) (String × Int) :=
  if data.length < 2 then .error (nm, sz)
  else
    let rest := data.drop 2
    let name_str := rest.takeWhile (fun c => c != '|')
    if '|' ∈ rest ∧ rest.drop (name_str.length + 1) ≠ [] then
      let size_str := (rest.drop (name_str.length + 1)).takeWhile (fun c => c != '\n')
      match cppStoll size_str with
      | .error _ => .error (String.mk name_str, sz)
      | .ok v => .ok (String.mk name_str, v)
    else .ok (nm, sz)

/-- The bracket-matching loop of `Directory::deserialize` (lines 162-175),
iterating from the current scan position: `'['` increments the balance and
sets `found`, `']'` decrements it; one past the character where
`found && balance == 0` is returned (or the string length if never). -/
def bracketScanAux : List Char → Nat → Int → Bool → Nat
  | [], pos, _, _ => pos
  | c :: rest, pos, balance, found =>
    let balance' := if c = '[' then balance + 1 else if c = ']' then balance - 1 else balance
    let found' := found || (c == '[')
    if found' = true ∧ balance' = 0 then pos + 1
    else bracketScanAux rest (pos + 1) balance' found'

/-- Entry point of the bracket scan at absolute position `pos` with fresh
`balance = 0`, `found = false`. -/
def bracketScan (data : List Char) (pos : Nat) : Nat :=
  bracketScanAux (data.drop pos) pos 0 false

/-- The digit run scan of the `'F'` branch (lines 147-148):
`while (temp_end < data.length() && isdigit(data[temp_end])) temp_end++`. -/
def digitScanAux : List Char → Nat → Nat
  | [], pos => pos
  | c :: rest, pos => if c.isDigit then digitScanAux rest (pos + 1) else pos

/-- The digit run scan started at absolute position `pos`. -/
def digitScan (data : List Char) (pos : Nat) : Nat :=
  digitScanAux (data.drop pos) pos

/-- The child loop of `Directory::deserialize` (lines 133-196).  `recur` is
the recursive `Directory::deserialize` call used for `'D'` children; `rem`
is the remaining iteration count (`num_children - i`); `cp` is
`current_pos`; `acc` the children attached to `this` so far.  A `break`
(truncated data at line 134-135, or a tag that is neither `F` nor `D` at
line 176-177) leaves the loop silently: `.ok acc`.  An exception escaping a
child's `deserialize` propagates with the already-attached children:
`.error acc`. -/
def deserializeLoopW
    (recur : List Char → Except (String × List FSNode) (String × List FSNode))
    (data : List Char) :
    Nat → Nat → List FSNode → Except (List FSNode) (List FSNode)
  | 0, _, acc => .ok acc
  | rem+1, cp, acc =>
    if data.length ≤ cp + 1 then .ok acc
    else if data.getD cp ' ' = ']' then .ok acc
    else
      let ct := data.getD cp ' '
      if ct = 'F' then
        let p1 := cppFind data '|' (cp + 1)
        let p2 := if p1 ≠ npos then cppFind data '|' (p1 + 1) else npos
        let te := if p2 ≠ npos then p2 + 1 else data.length
        let sp := digitScan data te
        let seg := substr data cp (sp - cp)
        match fileDeserialize "" 0 seg with
        | .error _ => .error acc
        | .ok (n, s) => deserializeLoopW recur data rem sp (acc ++ [.file n s])
      else if ct = 'D' then
        let b := cppFind data '[' (cp + 1)
        let sp0 := if b ≠ npos then b else data.length
        let sp := bracketScan data sp0
        let seg := substr data cp (sp - cp)
        match recur seg with
        | .error _ => .error acc
        | .ok (n, cs) => deserializeLoopW recur data rem sp (acc ++ [.dir n cs])
      else .ok acc

/-- `Directory::deserialize(data)` (lines 114-197).  The old children are
deleted and cleared first (lines 115-116), then the header is parsed
(`first_pipe`, `second_pipe`, `bracket_open`, `name`, `num_children`), then
the child loop runs.  `.ok (name, children)` is the object state on normal
return; `.error (name, children)` is its state when an uncaught
`stoi`/`stoll` exception escapes.  The `fuel` argument only bounds the
recursion depth for Lean; it strictly exceeds every reachable nesting depth
at every call site (each recursive call receives a strictly shorter
segment), so the `fuel = 0` branch is unreachable. -/
def deserializeD : Nat → List Char → Except (String × List FSNode) (String × List FSNode)
  | 0, _ => .error ("", [])
  | fuel+1, data =>
    let first_pipe := cppFind data '|' 0
    let second_pipe := cppFind data '|' (succPos first_pipe)
    let bracket_open := cppFind data '[' (succPos second_pipe)
    let name := String.mk (substr data (succPos first_pipe) (second_pipe - succPos first_pipe))
    if second_pipe ≠ npos ∧ bracket_open ≠ npos ∧ second_pipe + 1 < bracket_open then
      match cppStoi (substr data (second_pipe + 1) (bracket_open - (second_pipe + 1))) with
      | .error _ => .error (name, [])
      | .ok k =>
        if k = 0 then .ok (name, [])
        else
          match deserializeLoopW (fun seg => deserializeD fuel seg) data
              k.toNat (bracket_open + 1) [] with
          | .ok cs => .ok (name, cs)
          | .error cs => .error (name, cs)
    else .ok (name, [])

/-- `Directory::deserialize` with the depth bound instantiated:
`data.length + 1` strictly exceeds any possible bracket-nesting depth. -/
def dirDeserialize (data : List Char) :
    Except (String × List FSNode) (String × List FSNode) :=
  deserializeD (data.length + 1) data

/-- In-place restore into an existing `Directory`: lines 115-116 destroy
and clear the target's current children before anything is read, so the
outcome never depends on the prior `(name, children)` state. -/
def deserializeInto (_target : String × List FSNode) (data : List Char) :
    Except (String × List FSNode) (String × List FSNode) :=
  dirDeserialize data

/-- The decode pattern of `main` (lines 227-228, and the child dispatch at
lines 182-194): construct a fresh node of the same variant (`File("", 0)` /
`Directory("")`) and call its `deserialize`; `none` when an exception
escapes. -/
def decodeFresh : FSNode → List Char → Option FSNode
  | .file _ _, data =>
    match fileDeserialize "" 0 data with
    | .ok (n, s) => some (.file n s)
    | .error _ => none
  | .dir _ _, data =>
    match dirDeserialize data with
    | .ok (n, cs) => some (.dir n cs)
    | .error _ => none

/-- A name is representable iff it avoids the three reserved delimiters. -/
def goodName (n : String) : Bool :=
  n.data.all (fun c => c != '|' && c != '[' && c != ']')

mutual
/-- Well-formed tree: names avoid `|`, `[`, `]` (§3 of the spec), file sizes
are non-negative `long long` values, and child counts fit in `int` (so that
`stoi` on the printed count cannot throw `out_of_range`). -/
def wellFormed : FSNode → Bool
  | .file n s => goodName n && decide (0 ≤ s) && decide (s ≤ 9223372036854775807)
  | .dir n cs => goodName n && decide (cs.length ≤ 2147483647) && wellFormedList cs

/-- `wellFormed` on every member of a child list. -/
def wellFormedList : List FSNode → Bool
  | [] => true
  | c :: cs => wellFormed c && wellFormedList cs
end

mutual
/-- Directory-nesting depth of a node: the number of nested
`Directory::deserialize` calls needed to decode its serialization. -/
def depthD : FSNode → Nat
  | .file _ _ => 0
  | .dir _ cs => depthDList cs + 1

/-- Maximum `depthD` over a child list. -/
def depthDList : List FSNode → Nat
  | [] => 0
  | c :: cs => max (depthD c) (depthDList cs)
end

/-- A linear chain of nested directories of the given depth, ending in a
file — used to exercise the round-trip at depth ≥ 50. -/
def chainDir : Nat → FSNode
  | 0 => .file "a" 1
  | k+1 => .dir "d" [chainDir k]

/-! ## Decimal printing lemmas -/

theorem natToDigitsCore_append (fuel : Nat) :
    ∀ (n : Nat) (acc : List Char),
      natToDigitsCore fuel n acc = natToDigitsCore fuel n [] ++ acc := by
  induction fuel with
  | zero => intro n acc; simp [natToDigitsCore]
  | succ fuel ih =>
      intro n acc
      by_cases h : n < 10
      · simp [natToDigitsCore, h]
      · simp only [natToDigitsCore, if_neg h]
        rw [ih (n / 10) (digitChar (n % 10) :: acc),
            ih (n / 10) [digitChar (n % 10)]]
        simp

theorem digitChar_isDigit {d : Nat} (h : d < 10) : (digitChar d).isDigit = true := by
  interval_cases d <;> decide

theorem digitChar_toNat {d : Nat} (h : d < 10) : (digitChar d).toNat = 48 + d := by
  interval_cases d <;> decide

theorem mem_natToDigitsCore (fuel : Nat) :
    ∀ (n : Nat) (acc : List Char), (∀ c ∈ acc, c.isDigit = true) →
      ∀ c ∈ natToDigitsCore fuel n acc, c.isDigit = true := by
  induction fuel with
  | zero => intro n acc hacc; simpa [natToDigitsCore] using hacc
  | succ fuel ih =>
      intro n acc hacc c hc
      by_cases h : n < 10
      · simp only [natToDigitsCore, if_pos h] at hc
        rcases List.mem_cons.mp hc with he | hc
        · rw [he]; exact digitChar_isDigit h
        · exact hacc _ hc
      · simp only [natToDigitsCore, if_neg h] at hc
        refine ih (n / 10) _ ?_ c hc
        intro x hx
        rcases List.mem_cons.mp hx with he | hx
        · rw [he]; exact digitChar_isDigit (Nat.mod_lt _ (by omega))
        · exact hacc _ hx

theorem natToDigitsCore_ne_nil (fuel : Nat) :
    ∀ (n : Nat) (acc : List Char), 0 < fuel → natToDigitsCore fuel n acc ≠ [] := by
  induction fuel with
  | zero => intro n acc h; omega
  | succ fuel ih =>
      intro n acc _
      by_cases h : n < 10
      · simp [natToDigitsCore, h]
      · simp only [natToDigitsCore, if_neg h]
        cases fuel with
        | zero => simp [natToDigitsCore]
        | succ f => exact ih _ _ (Nat.succ_pos f)

theorem digitsToNat_natToDigitsCore (fuel : Nat) :
    ∀ n : Nat, n < 10 ^ fuel → digitsToNat (natToDigitsCore fuel n []) = n := by
  induction fuel with
  | zero => intro n h; interval_cases n; simp [natToDigitsCore, digitsToNat]
  | succ fuel ih =>
      intro n h
      by_cases h10 : n < 10
      · simp [natToDigitsCore, if_pos h10, digitsToNat, digitChar_toNat h10]
      · simp only [natToDigitsCore, if_neg h10]
        rw [natToDigitsCore_append]
        have hdiv : n / 10 < 10 ^ fuel := by
          rw [Nat.div_lt_iff_lt_mul (by norm_num)]
          calc n < 10 ^ (fuel + 1) := h
            _ = 10 ^ fuel * 10 := by ring
        have := ih (n / 10) hdiv
        simp only [digitsToNat, List.foldl_append, List.foldl_cons, List.foldl_nil]
        simp only [digitsToNat] at this
        rw [this, digitChar_toNat (Nat.mod_lt _ (by omega))]
        omega

theorem digitsToNat_natToDigits (n : Nat) : digitsToNat (natToDigits n) = n := by
  refine digitsToNat_natToDigitsCore (n + 1) n ?_
  calc n < 10 ^ n := Nat.lt_pow_self (by norm_num) n
    _ ≤ 10 ^ (n + 1) := Nat.pow_le_pow_right (by norm_num) (Nat.le_succ n)

theorem natToDigits_all_digit (n : Nat) : ∀ c ∈ natToDigits n, c.isDigit = true :=
  mem_natToDigitsCore (n + 1) n [] (by simp)

theorem natToDigits_ne_nil (n : Nat) : natToDigits n ≠ [] :=
  natToDigitsCore_ne_nil (n + 1) n [] (Nat.succ_pos n)

/-! ## Character classification lemmas -/

theorem isDigit_not_space {c : Char} (h : c.isDigit = true) : isSpaceChar c = false := by
  by_contra hc
  have hs : isSpaceChar c = true := by
    cases hx : isSpaceChar c
    · exact absurd hx hc
    · rfl
  simp only [isSpaceChar, Bool.or_eq_true, beq_iff_eq] at hs
  rcases hs with ((((rfl | rfl) | rfl) | rfl) | rfl) | rfl <;> simp_all

theorem isDigit_ne {c x : Char} (h : c.isDigit = true) (hx : x.isDigit = false) :
    c ≠ x := by
  intro he; rw [he] at h; rw [h] at hx; exact absurd hx (by simp)

/-! ## Equation lemmas for the mutual definitions -/

@[simp] theorem serialize_file (n : String) (s : Int) :
    serialize (.file n s) = 'F' :: '|' :: (n.data ++ '|' :: intToChars s) := by
  rw [serialize]

@[simp] theorem serialize_dir (n : String) (cs : List FSNode) :
    serialize (.dir n cs) = 'D' :: '|' :: (n.data ++ '|' ::
      (natToDigits cs.length ++ '[' :: (serializeList cs ++ [']']))) := by
  rw [serialize]

@[simp] theorem serializeList_nil : serializeList [] = [] := by rw [serializeList]

@[simp] theorem serializeList_cons (c : FSNode) (cs : List FSNode) :
    serializeList (c :: cs) = serialize c ++ serializeList cs := by rw [serializeList]

@[simp] theorem getSize_file (n : String) (s : Int) : getSize (.file n s) = s := by
  rw [getSize]

@[simp] theorem getSize_dir (n : String) (cs : List FSNode) :
    getSize (.dir n cs) = getSizeList cs := by rw [getSize]

@[simp] theorem getSizeList_nil : getSizeList [] = 0 := by rw [getSizeList]

@[simp] theorem getSizeList_cons (c : FSNode) (cs : List FSNode) :
    getSizeList (c :: cs) = getSize c + getSizeList cs := by rw [getSizeList]

@[simp] theorem wellFormed_file (n : String) (s : Int) :
    wellFormed (.file n s)
      = (goodName n && decide (0 ≤ s) && decide (s ≤ 9223372036854775807)) := by
  rw [wellFormed]

@[simp] theorem wellFormed_dir (n : String) (cs : List FSNode) :
    wellFormed (.dir n cs)
      = (goodName n && decide (cs.length ≤ 2147483647) && wellFormedList cs) := by
  rw [wellFormed]

@[simp] theorem wellFormedList_nil : wellFormedList [] = true := by rw [wellFormedList]

@[simp] theorem wellFormedList_cons (c : FSNode) (cs : List FSNode) :
    wellFormedList (c :: cs) = (wellFormed c && wellFormedList cs) := by
  rw [wellFormedList]

@[simp] theorem depthD_file (n : String) (s : Int) : depthD (.file n s) = 0 := by
  rw [depthD]

@[simp] theorem depthD_dir (n : String) (cs : List FSNode) :
    depthD (.dir n cs) = depthDList cs + 1 := by rw [depthD]

@[simp] theorem depthDList_nil : depthDList [] = 0 := by rw [depthDList]

@[simp] theorem depthDList_cons (c : FSNode) (cs : List FSNode) :
    depthDList (c :: cs) = max (depthD c) (depthDList cs) := by rw [depthDList]

/-! ## leadingDigits / strtol lemmas -/

theorem leadingDigits_append {a : List Char} (r : List Char)
    (ha : ∀ c ∈ a, c.isDigit = true) :
    leadingDigits (a ++ r) = a ++ leadingDigits r := by
  induction a with
  | nil => simp
  | cons c t ih =>
      simp only [List.cons_append, leadingDigits, if_pos (ha c (by simp)), List.append_eq]
      rw [ih (fun x hx => ha x (by simp [hx]))]

theorem leadingDigits_cons_of_not {c : Char} (rest : List Char)
    (hc : c.isDigit = false) : leadingDigits (c :: rest) = [] := by
  simp [leadingDigits, hc]

theorem cppStrtol_natToDigits {lo hi : Int} (m : Nat) (r : List Char)
    (hlo : lo ≤ 0) (hhi : (m : Int) ≤ hi) (hr : leadingDigits r = []) :
    cppStrtol lo hi (natToDigits m ++ r) = .ok m := by
  obtain ⟨h, t, hht⟩ : ∃ h t, natToDigits m = h :: t := by
    cases hd : natToDigits m with
    | nil => exact absurd hd (natToDigits_ne_nil m)
    | cons h t => exact ⟨h, t, rfl⟩
  have hh : h.isDigit = true := by
    apply natToDigits_all_digit m; rw [hht]; exact List.mem_cons_self _ _
  have ht : ∀ c ∈ t, c.isDigit = true := by
    intro c hc; apply natToDigits_all_digit m; rw [hht]; exact List.mem_cons_of_mem _ hc
  have hminus : (h == '-') = false := by
    simp only [beq_eq_false_iff_ne]; exact isDigit_ne hh (by decide)
  have hplus : (h == '+') = false := by
    simp only [beq_eq_false_iff_ne]; exact isDigit_ne hh (by decide)
  have hds : leadingDigits (natToDigits m ++ r) = natToDigits m := by
    rw [leadingDigits_append r (natToDigits_all_digit m), hr, List.append_nil]
  simp only [cppStrtol, hht, List.cons_append,
    List.dropWhile_cons, isDigit_not_space hh, Bool.false_eq_true, if_false,
    List.headD_cons, hminus, hplus, Bool.or_self, Bool.false_eq_true, if_false]
  rw [show h :: (t ++ r) = (h :: t) ++ r from rfl, ← hht, hds]
  rw [if_neg (natToDigits_ne_nil m)]
  simp only [Bool.false_eq_true, if_false, digitsToNat_natToDigits]
  have h1 : ¬ ((m : Int) < lo) := not_lt.mpr (le_trans hlo (by positivity))
  have h2 : ¬ (hi < (m : Int)) := not_lt.mpr hhi
  rw [if_neg (by exact not_or.mpr ⟨h1, h2⟩)]

/-! ## find / takeWhile / drop / getD lemmas -/

theorem findIdxFrom_append_cons {a : List Char} {c : Char} (b : List Char)
    (p : Char → Bool) (ha : ∀ x ∈ a, p x = false) (hc : p c = true) :
    findIdxFrom p (a ++ c :: b) = some a.length := by
  induction a with
  | nil => simp [findIdxFrom, hc]
  | cons y t ih =>
      simp only [List.cons_append, findIdxFrom, ha y (by simp), Bool.false_eq_true,
        if_false, List.append_eq]
      rw [ih (fun x hx => ha x (by simp [hx]))]
      simp [List.length_cons]

theorem findIdxFrom_eq_none {l : List Char} (p : Char → Bool)
    (h : ∀ x ∈ l, p x = false) : findIdxFrom p l = none := by
  induction l with
  | nil => rfl
  | cons y t ih =>
      simp only [findIdxFrom, h y (by simp), Bool.false_eq_true, if_false]
      rw [ih (fun x hx => h x (by simp [hx]))]
      rfl

theorem cppFind_spec {data : List Char} {c : Char} {start : Nat} {a b : List Char}
    (hdrop : data.drop start = a ++ c :: b) (ha : ∀ x ∈ a, x ≠ c) :
    cppFind data c start = start + a.length := by
  unfold cppFind
  rw [hdrop, findIdxFrom_append_cons b _ (fun x hx => by
      simp only [beq_eq_false_iff_ne]; exact ha x hx) (by simp)]

theorem cppFind_of_none {data : List Char} {c : Char} {start : Nat}
    (h : ∀ x ∈ data.drop start, x ≠ c) : cppFind data c start = npos := by
  unfold cppFind
  rw [findIdxFrom_eq_none _ (fun x hx => by
      simp only [beq_eq_false_iff_ne]; exact h x hx)]

theorem getD_of_drop {l : List Char} {i : Nat} {x : Char} {xs : List Char}
    (h : l.drop i = x :: xs) (d : Char) : l.getD i d = x := by
  induction i generalizing l with
  | zero => rw [List.drop_zero] at h; rw [h]; rfl
  | succ i ih =>
      cases l with
      | nil => simp at h
      | cons y t =>
          rw [List.drop_succ_cons] at h
          simpa [List.getD_cons_succ] using ih h

theorem takeWhile_append_cons {a : List Char} {c : Char} (b : List Char)
    (p : Char → Bool) (ha : ∀ x ∈ a, p x = true) (hc : p c = false) :
    (a ++ c :: b).takeWhile p = a := by
  induction a with
  | nil => simp [List.takeWhile_cons, hc]
  | cons y t ih =>
      simp only [List.cons_append, List.takeWhile_cons, ha y (by simp), if_true]
      rw [ih (fun x hx => ha x (by simp [hx]))]

/-! ## digit scan lemmas -/

theorem digitScanAux_append {ds : List Char} (hds : ∀ c ∈ ds, c.isDigit = true) :
    ∀ (rest : List Char) (pos : Nat),
      digitScanAux (ds ++ rest) pos = digitScanAux rest (pos + ds.length) := by
  induction ds with
  | nil => intro rest pos; simp
  | cons c t ih =>
      intro rest pos
      simp only [List.cons_append, digitScanAux, if_pos (hds c (by simp)), List.append_eq]
      rw [ih (fun x hx => hds x (by simp [hx]))]
      congr 1
      simp only [List.length_cons]
      omega

theorem digitScanAux_cons_stop {c : Char} (rest : List Char) (pos : Nat)
    (hc : c.isDigit = false) : digitScanAux (c :: rest) pos = pos := by
  simp [digitScanAux, hc]

/-! ## Well-formedness accessors -/

theorem goodName_spec {n : String} (h : goodName n = true) :
    ∀ c ∈ n.data, c ≠ '|' ∧ c ≠ '[' ∧ c ≠ ']' := by
  intro c hc
  have := List.all_eq_true.mp h c hc
  simp only [Bool.and_eq_true, bne_iff_ne, ne_eq] at this
  exact ⟨this.1.1, this.1.2, this.2⟩

theorem wellFormedList_mem {cs : List FSNode} (h : wellFormedList cs = true) :
    ∀ c ∈ cs, wellFormed c = true := by
  induction cs with
  | nil => intro c hc; simp at hc
  | cons x t ih =>
      intro c hc
      rw [wellFormedList_cons, Bool.and_eq_true] at h
      rcases List.mem_cons.mp hc with he | hc
      · rw [he]; exact h.1
      · exact ih h.2 c hc

theorem wellFormed_dir_parts {n : String} {cs : List FSNode}
    (h : wellFormed (.dir n cs) = true) :
    goodName n = true ∧ cs.length ≤ 2147483647 ∧ wellFormedList cs = true := by
  rw [wellFormed_dir, Bool.and_eq_true, Bool.and_eq_true] at h
  exact ⟨h.1.1, by simpa using h.1.2, h.2⟩

theorem wellFormed_file_parts {n : String} {s : Int}
    (h : wellFormed (.file n s) = true) :
    goodName n = true ∧ 0 ≤ s ∧ s ≤ 9223372036854775807 := by
  rw [wellFormed_file, Bool.and_eq_true, Bool.and_eq_true] at h
  exact ⟨h.1.1, by simpa using h.1.2, by simpa using h.2⟩

/-! ## Serialize shape facts -/

theorem intToChars_nonneg {s : Int} (hs : 0 ≤ s) :
    intToChars s = natToDigits s.toNat := by
  simp [intToChars, not_lt.mpr hs]

theorem serialize_file_no_brackets {n : String} {s : Int}
    (hn : goodName n = true) (hs : 0 ≤ s) :
    ∀ c ∈ serialize (.file n s), c ≠ '[' ∧ c ≠ ']' := by
  intro c hc
  rw [serialize_file, intToChars_nonneg hs] at hc
  rcases List.mem_cons.mp hc with he | hc
  · rw [he]; exact ⟨by decide, by decide⟩
  rcases List.mem_cons.mp hc with he | hc
  · rw [he]; exact ⟨by decide, by decide⟩
  rcases List.mem_append.mp hc with hc | hc
  · exact ⟨(goodName_spec hn c hc).2.1, (goodName_spec hn c hc).2.2⟩
  rcases List.mem_cons.mp hc with he | hc
  · rw [he]; exact ⟨by decide, by decide⟩
  · have hd := natToDigits_all_digit _ c hc
    exact ⟨isDigit_ne hd (by decide), isDigit_ne hd (by decide)⟩

theorem intToChars_ne_nil (s : Int) : intToChars s ≠ [] := by
  unfold intToChars
  by_cases h : s < 0
  · simp [h]
  · simp only [if_neg h]; exact natToDigits_ne_nil _

theorem serialize_len (t : FSNode) : 4 ≤ (serialize t).length := by
  cases t with
  | file n s =>
      rw [serialize_file]
      have h := intToChars_ne_nil s
      have : 1 ≤ (intToChars s).length := by
        cases hx : intToChars s with
        | nil => exact absurd hx h
        | cons a b => simp
      simp only [List.length_cons, List.length_append]
      omega
  | dir n cs =>
      rw [serialize_dir]
      simp only [List.length_cons, List.length_append]
      omega

theorem serialize_head (t : FSNode) :
    (∃ tl, serialize t = 'F' :: tl) ∨ (∃ tl, serialize t = 'D' :: tl) := by
  cases t with
  | file n s => exact .inl ⟨_, by rw [serialize_file]⟩
  | dir n cs => exact .inr ⟨_, by rw [serialize_dir]⟩

/-! ## Bracket scan lemmas -/

theorem bracketScanAux_skip_plain {l : List Char}
    (hl : ∀ c ∈ l, c ≠ '[' ∧ c ≠ ']') :
    ∀ (rest : List Char) (pos : Nat) (bal : Int), bal ≠ 0 →
      bracketScanAux (l ++ rest) pos bal true
        = bracketScanAux rest (pos + l.length) bal true := by
  induction l with
  | nil => intro rest pos bal _; simp
  | cons c t ih =>
      intro rest pos bal hbal
      obtain ⟨h1, h2⟩ := hl c (by simp)
      simp only [List.cons_append, bracketScanAux, if_neg h1, if_neg h2, Bool.true_or,
        List.append_eq]
      rw [if_neg (by intro hcon; exact hbal hcon.2)]
      rw [ih (fun x hx => hl x (by simp [hx])) rest (pos + 1) bal hbal]
      congr 1
      simp only [List.length_cons]
      omega

theorem bracketScanAux_open (rest : List Char) (pos : Nat) (bal : Int) (found : Bool)
    (h : bal + 1 ≠ 0) :
    bracketScanAux ('[' :: rest) pos bal found
      = bracketScanAux rest (pos + 1) (bal + 1) true := by
  simp only [bracketScanAux]
  norm_num
  intro hcon; exact absurd hcon h

theorem bracketScanAux_close_cont (rest : List Char) (pos : Nat) (bal : Int)
    (h : bal - 1 ≠ 0) :
    bracketScanAux (']' :: rest) pos bal true
      = bracketScanAux rest (pos + 1) (bal - 1) true := by
  simp only [bracketScanAux]
  norm_num
  rw [if_neg (by decide : ¬(']' : Char) = '['), if_neg h]

theorem bracketScanAux_close_stop (rest : List Char) (pos : Nat) (bal : Int)
    (h : bal - 1 = 0) :
    bracketScanAux (']' :: rest) pos bal true = pos + 1 := by
  simp only [bracketScanAux]
  norm_num
  rw [if_neg (by decide : ¬(']' : Char) = '[')]
  intro hcon; exact absurd h hcon

theorem depthD_mem {t : FSNode} {cs : List FSNode} (h : t ∈ cs) :
    depthD t ≤ depthDList cs := by
  induction cs with
  | nil => simp at h
  | cons c tl ih =>
      rw [depthDList_cons]
      rcases List.mem_cons.mp h with he | h
      · rw [he]; exact le_max_left _ _
      · exact le_trans (ih h) (le_max_right _ _)

theorem bracketScanAux_skip_file {n : String} {s : Int}
    (hn : goodName n = true) (hs : 0 ≤ s) (rest : List Char) (pos : Nat) (bal : Int)
    (hbal : 1 ≤ bal) :
    bracketScanAux (serialize (.file n s) ++ rest) pos bal true
      = bracketScanAux rest (pos + (serialize (.file n s)).length) bal true :=
  bracketScanAux_skip_plain (serialize_file_no_brackets hn hs) rest pos bal (by omega)

theorem bracketScanAux_skip_list {ts : List FSNode}
    (hone : ∀ t ∈ ts, ∀ (rest : List Char) (pos : Nat) (bal : Int), 1 ≤ bal →
      bracketScanAux (serialize t ++ rest) pos bal true
        = bracketScanAux rest (pos + (serialize t).length) bal true) :
    ∀ (rest : List Char) (pos : Nat) (bal : Int), 1 ≤ bal →
      bracketScanAux (serializeList ts ++ rest) pos bal true
        = bracketScanAux rest (pos + (serializeList ts).length) bal true := by
  induction ts with
  | nil => intro rest pos bal _; simp
  | cons c tl ih =>
      intro rest pos bal hbal
      rw [serializeList_cons, List.append_assoc]
      rw [hone c (by simp) _ _ _ hbal]
      rw [ih (fun t ht => hone t (by simp [ht])) _ _ _ hbal]
      congr 1
      simp only [List.length_append]
      omega

theorem bracketScanAux_skip_serialize :
    ∀ (N : Nat) (t : FSNode), depthD t ≤ N → wellFormed t = true →
      ∀ (rest : List Char) (pos : Nat) (bal : Int), 1 ≤ bal →
        bracketScanAux (serialize t ++ rest) pos bal true
          = bracketScanAux rest (pos + (serialize t).length) bal true := by
  intro N
  induction N with
  | zero =>
      intro t hd hw rest pos bal hbal
      cases t with
      | file n s =>
          obtain ⟨hn, hs, _⟩ := wellFormed_file_parts hw
          exact bracketScanAux_skip_file hn hs rest pos bal hbal
      | dir n cs => rw [depthD_dir] at hd; omega
  | succ N ih =>
      intro t hd hw rest pos bal hbal
      cases t with
      | file n s =>
          obtain ⟨hn, hs, _⟩ := wellFormed_file_parts hw
          exact bracketScanAux_skip_file hn hs rest pos bal hbal
      | dir n cs =>
          obtain ⟨hn, _, hwl⟩ := wellFormed_dir_parts hw
          rw [depthD_dir] at hd
          have hmem : ∀ t ∈ cs, ∀ (rest : List Char) (pos : Nat) (bal : Int), 1 ≤ bal →
              bracketScanAux (serialize t ++ rest) pos bal true
                = bracketScanAux rest (pos + (serialize t).length) bal true :=
            fun t ht => ih t (le_trans (depthD_mem ht) (by omega))
              (wellFormedList_mem hwl t ht)
          have hplain : ∀ c ∈ ('D' :: '|' :: (n.data ++ '|' :: natToDigits cs.length)),
              c ≠ '[' ∧ c ≠ ']' := by
            intro c hc
            rcases List.mem_cons.mp hc with he | hc
            · rw [he]; exact ⟨by decide, by decide⟩
            rcases List.mem_cons.mp hc with he | hc
            · rw [he]; exact ⟨by decide, by decide⟩
            rcases List.mem_append.mp hc with hc | hc
            · exact ⟨(goodName_spec hn c hc).2.1, (goodName_spec hn c hc).2.2⟩
            rcases List.mem_cons.mp hc with he | hc
            · rw [he]; exact ⟨by decide, by decide⟩
            · have hdg := natToDigits_all_digit _ c hc
              exact ⟨isDigit_ne hdg (by decide), isDigit_ne hdg (by decide)⟩
          have hre : serialize (.dir n cs) ++ rest
              = ('D' :: '|' :: (n.data ++ '|' :: natToDigits cs.length))
                ++ ('[' :: (serializeList cs ++ ']' :: rest)) := by
            rw [serialize_dir]; simp
          rw [hre]
          rw [bracketScanAux_skip_plain hplain _ _ _ (by omega)]
          rw [bracketScanAux_open _ _ _ _ (by omega)]
          rw [bracketScanAux_skip_list hmem _ _ _ (by omega)]
          rw [bracketScanAux_close_cont _ _ _ (by omega)]
          have hb : bal + 1 - 1 = bal := by ring
          rw [hb]
          congr 1
          rw [serialize_dir]
          simp only [List.length_cons, List.length_append, List.length_nil]
          omega

theorem string_mk_data (n : String) : String.mk n.data = n := by
  cases n; rfl

theorem takeWhile_of_all {l : List Char} {p : Char → Bool}
    (h : ∀ x ∈ l, p x = true) : l.takeWhile p = l := by
  induction l with
  | nil => rfl
  | cons c t ih =>
      simp [List.takeWhile_cons, h c (by simp), ih (fun x hx => h x (by simp [hx]))]

theorem drop_append_cons_len {a : List Char} {c : Char} {b : List Char} :
    (a ++ c :: b).drop (a.length + 1) = b := by
  have : a ++ c :: b = (a ++ [c]) ++ b := by simp
  rw [this]
  have hlen : (a ++ [c]).length = a.length + 1 := by simp
  rw [← hlen, List.drop_left]

/-- `File::deserialize` applied to `File::serialize` output recovers the name
and size, for a well-formed file. -/
theorem fileDeserialize_serialize (nm : String) (sz : Int) {n : String} {s : Int}
    (hn : goodName n = true) (hs : 0 ≤ s) (hs2 : s ≤ 9223372036854775807) :
    fileDeserialize nm sz (serialize (.file n s)) = .ok (n, s) := by
  rw [serialize_file, intToChars_nonneg hs]
  have hpipe : ∀ x ∈ n.data, (x != '|') = true := by
    intro x hx
    simp only [bne_iff_ne, ne_eq]
    exact (goodName_spec hn x hx).1
  have hname : (n.data ++ '|' :: natToDigits s.toNat).takeWhile (fun c => c != '|')
      = n.data :=
    takeWhile_append_cons _ _ hpipe (by decide)
  have hsize : (n.data ++ '|' :: natToDigits s.toNat).drop (n.data.length + 1)
      = natToDigits s.toNat := drop_append_cons_len
  have hsizestr : (natToDigits s.toNat).takeWhile (fun c => c != '\n')
      = natToDigits s.toNat := by
    refine takeWhile_of_all (fun x hx => ?_)
    simp only [bne_iff_ne, ne_eq]
    exact isDigit_ne (natToDigits_all_digit _ x hx) (by decide)
  have hstoll : cppStoll (natToDigits s.toNat) = .ok s := by
    unfold cppStoll
    have := @cppStrtol_natToDigits (-9223372036854775808)
      9223372036854775807 s.toNat [] (by norm_num)
      (by rw [Int.toNat_of_nonneg hs]; exact hs2) rfl
    rw [List.append_nil] at this
    rw [this, Int.toNat_of_nonneg hs]
  unfold fileDeserialize
  rw [if_neg (by simp only [List.length_cons]; omega)]
  have hdrop2 : ('F' :: '|' :: (n.data ++ '|' :: natToDigits s.toNat)).drop 2
      = n.data ++ '|' :: natToDigits s.toNat := rfl
  simp only [hdrop2, hname, hsize, hsizestr]
  rw [if_pos ⟨List.mem_append_right _ (List.mem_cons_self _ _), natToDigits_ne_nil _⟩]
  rw [hstoll]

theorem bracketScan_segment {data : List Char} {pos : Nat} {body rest : List Char}
    (hdrop : data.drop pos = '[' :: (body ++ ']' :: rest))
    (hskip : ∀ (r : List Char) (p : Nat) (bal : Int), 1 ≤ bal →
        bracketScanAux (body ++ r) p bal true
          = bracketScanAux r (p + body.length) bal true) :
    bracketScan data pos = pos + body.length + 2 := by
  unfold bracketScan
  rw [hdrop]
  rw [bracketScanAux_open _ _ _ _ (by norm_num)]
  rw [hskip _ _ _ (by norm_num)]
  rw [bracketScanAux_close_stop _ _ _ (by norm_num)]
  omega

theorem drop_shift (l : List Char) (a b : Nat) : l.drop (a + b) = (l.drop a).drop b := by
  rw [List.drop_drop, Nat.add_comm]

theorem npos_eq : npos = 18446744073709551615 := rfl

theorem ne_npos_of_lt {x : Nat} (h : x < npos) : x ≠ npos := Nat.ne_of_lt h

theorem cppFind_cons_self {data : List Char} {c : Char} {start : Nat} {b : List Char}
    (hdrop : data.drop start = c :: b) : cppFind data c start = start := by
  have := @cppFind_spec data c start [] b
    (by simpa using hdrop) (by simp)
  simpa using this

theorem serializeList_close_head (ts : List FSNode) :
    ∃ h tail, serializeList ts ++ [']'] = h :: tail ∧ h.isDigit = false ∧ h ≠ '|' := by
  cases ts with
  | nil => exact ⟨']', [], rfl, by decide, by decide⟩
  | cons u ts' =>
      rcases serialize_head u with ⟨tl, htl⟩ | ⟨tl, htl⟩
      · exact ⟨'F', tl ++ (serializeList ts' ++ [']']), by simp [htl], by decide, by decide⟩
      · exact ⟨'D', tl ++ (serializeList ts' ++ [']']), by simp [htl], by decide, by decide⟩

/-- The child loop of `Directory::deserialize` consumes exactly the
serializations of `pending` (followed by the closing `']'`) and attaches the
decoded children in order, provided the recursive call is correct on the
`Directory` members and the iteration budget `rem` is at least as large as
the number of segments present. -/
theorem loop_ok
    (recur : List Char → Except (String × List FSNode) (String × List FSNode)) :
    ∀ (pending : List FSNode) (data : List Char) (cp : Nat) (acc : List FSNode)
      (rem : Nat),
      data.length < npos →
      wellFormedList pending = true →
      (∀ n' cs', FSNode.dir n' cs' ∈ pending →
        recur (serialize (.dir n' cs')) = .ok (n', cs')) →
      data.drop cp = serializeList pending ++ [']'] →
      pending.length ≤ rem →
      deserializeLoopW recur data rem cp acc = .ok (acc ++ pending) := by
  intro pending
  induction pending with
  | nil =>
      intro data cp acc rem hlen _ _ hdrop hrem
      cases rem with
      | zero => simp [deserializeLoopW]
      | succ r =>
          have hlend := congrArg List.length hdrop
          simp only [List.length_drop, List.length_append, List.length_cons,
            serializeList_nil, List.length_nil] at hlend
          simp only [deserializeLoopW]
          rw [if_pos (by omega)]
          simp
  | cons t ts ih =>
      intro data cp acc rem hlen hwl hrec hdrop hrem
      have hwparts : wellFormed t = true ∧ wellFormedList ts = true := by
        rw [wellFormedList_cons, Bool.and_eq_true] at hwl; exact hwl
      obtain ⟨hwt, hwts⟩ := hwparts
      cases rem with
      | zero => simp at hrem
      | succ r =>
          have hrem' : ts.length ≤ r := by
            simp only [List.length_cons] at hrem; omega
          have hrec' : ∀ n' cs', FSNode.dir n' cs' ∈ ts →
              recur (serialize (.dir n' cs')) = .ok (n', cs') :=
            fun n' cs' h => hrec n' cs' (List.mem_cons_of_mem _ h)
          obtain ⟨hh, htail, hZeq, hZdig, hZpipe⟩ := serializeList_close_head ts
          have hlenN := hlen
          rw [npos_eq] at hlenN
          cases t with
          | file n s =>
              obtain ⟨hn, hs, hs2⟩ := wellFormed_file_parts hwt
              rw [serializeList_cons] at hdrop
              rw [serialize_file, intToChars_nonneg hs] at hdrop
              have hdrop' : data.drop cp
                  = 'F' :: ('|' :: (n.data ++ '|' :: (natToDigits s.toNat
                      ++ (serializeList ts ++ [']'])))) := by
                rw [hdrop]; simp
              have hlend := congrArg List.length hdrop'
              simp only [List.length_drop, List.length_append, List.length_cons] at hlend
              simp only [deserializeLoopW]
              rw [if_neg (by omega)]
              have hget : data.getD cp ' ' = 'F' := getD_of_drop hdrop' ' '
              rw [hget]
              rw [if_neg (by decide : ¬('F' : Char) = ']')]
              rw [if_pos rfl]
              -- first pipe: right after 'F'
              have hdropcp1 : data.drop (cp + 1)
                  = '|' :: (n.data ++ '|' :: (natToDigits s.toNat
                      ++ (serializeList ts ++ [']']))) := by
                rw [drop_shift, hdrop']
                rfl
              have hp1 : cppFind data '|' (cp + 1) = cp + 1 :=
                cppFind_cons_self hdropcp1
              rw [hp1]
              rw [if_pos (ne_npos_of_lt (show cp + 1 < npos by rw [npos_eq]; omega))]
              -- second pipe: after the name
              have hdropcp2 : data.drop (cp + 1 + 1)
                  = n.data ++ '|' :: (natToDigits s.toNat
                      ++ (serializeList ts ++ [']'])) := by
                rw [drop_shift, hdropcp1]
                rfl
              have hp2 : cppFind data '|' (cp + 1 + 1) = cp + 1 + 1 + n.data.length :=
                cppFind_spec hdropcp2 (fun x hx => (goodName_spec hn x hx).1)
              rw [hp2]
              rw [if_pos (ne_npos_of_lt (show cp + 1 + 1 + n.data.length < npos by
                rw [npos_eq]; omega))]
              -- digit run
              have hdropte : data.drop (cp + 1 + 1 + n.data.length + 1)
                  = natToDigits s.toNat ++ (serializeList ts ++ [']']) := by
                rw [show cp + 1 + 1 + n.data.length + 1
                    = cp + 1 + 1 + (n.data.length + 1) from by omega]
                rw [drop_shift, hdropcp2, drop_append_cons_len]
              have hsp : digitScan data (cp + 1 + 1 + n.data.length + 1)
                  = cp + 1 + 1 + n.data.length + 1 + (natToDigits s.toNat).length := by
                unfold digitScan
                rw [hdropte, digitScanAux_append (natToDigits_all_digit _), hZeq]
                exact digitScanAux_cons_stop _ _ hZdig
              rw [hsp]
              -- the segment is exactly the file's serialization
              have hdropseg : data.drop cp
                  = ('F' :: '|' :: (n.data ++ '|' :: natToDigits s.toNat))
                    ++ (serializeList ts ++ [']']) := by
                rw [hdrop]; simp
              have hseg : substr data cp
                  (cp + 1 + 1 + n.data.length + 1 + (natToDigits s.toNat).length - cp)
                  = 'F' :: '|' :: (n.data ++ '|' :: natToDigits s.toNat) := by
                unfold substr
                rw [hdropseg]
                rw [show cp + 1 + 1 + n.data.length + 1 + (natToDigits s.toNat).length - cp
                    = ('F' :: '|' :: (n.data ++ '|' :: natToDigits s.toNat)).length by
                  simp only [List.length_cons, List.length_append]; omega]
                exact List.take_left _ _
              rw [hseg]
              have hfd : fileDeserialize "" 0
                  ('F' :: '|' :: (n.data ++ '|' :: natToDigits s.toNat)) = .ok (n, s) := by
                have := fileDeserialize_serialize "" 0 hn hs hs2
                rwa [serialize_file, intToChars_nonneg hs] at this
              simp only [hfd]
              -- recursive call on the remaining siblings
              have hdropnext : data.drop
                  (cp + 1 + 1 + n.data.length + 1 + (natToDigits s.toNat).length)
                  = serializeList ts ++ [']'] := by
                rw [drop_shift, hdropte, List.drop_left]
              rw [ih data _ (acc ++ [FSNode.file n s]) r hlen hwts hrec' hdropnext hrem']
              simp
          | dir n' cs' =>
              obtain ⟨hn', hcnt', hwl'⟩ := wellFormed_dir_parts hwt
              rw [serializeList_cons, serialize_dir] at hdrop
              have hdrop' : data.drop cp
                  = 'D' :: ('|' :: (n'.data ++ '|' :: (natToDigits cs'.length
                      ++ '[' :: (serializeList cs'
                        ++ ']' :: (serializeList ts ++ [']']))))) := by
                rw [hdrop]; simp
              have hlend := congrArg List.length hdrop'
              simp only [List.length_drop, List.length_append, List.length_cons] at hlend
              simp only [deserializeLoopW]
              rw [if_neg (by omega)]
              have hget : data.getD cp ' ' = 'D' := getD_of_drop hdrop' ' '
              rw [hget]
              rw [if_neg (by decide : ¬('D' : Char) = ']')]
              rw [if_neg (by decide : ¬('D' : Char) = 'F')]
              rw [if_pos rfl]
              -- find the opening bracket of this child
              have hdropcp1 : data.drop (cp + 1)
                  = ('|' :: (n'.data ++ '|' :: natToDigits cs'.length))
                    ++ '[' :: (serializeList cs'
                      ++ ']' :: (serializeList ts ++ [']'])) := by
                rw [drop_shift, hdrop']
                simp
              have hnobrk : ∀ x ∈ ('|' :: (n'.data ++ '|' :: natToDigits cs'.length)),
                  x ≠ '[' := by
                intro x hx
                rcases List.mem_cons.mp hx with he | hx
                · rw [he]; decide
                rcases List.mem_append.mp hx with hx | hx
                · exact (goodName_spec hn' x hx).2.1
                rcases List.mem_cons.mp hx with he | hx
                · rw [he]; decide
                · exact isDigit_ne (natToDigits_all_digit _ x hx) (by decide)
              have hb : cppFind data '[' (cp + 1)
                  = cp + n'.data.length + (natToDigits cs'.length).length + 3 := by
                rw [cppFind_spec hdropcp1 hnobrk]
                simp only [List.length_cons, List.length_append]
                omega
              rw [hb]
              rw [if_pos (ne_npos_of_lt (show cp + n'.data.length
                  + (natToDigits cs'.length).length + 3 < npos by rw [npos_eq]; omega))]
              -- bracket matching skips exactly this child's body
              have hdropb : data.drop
                  (cp + n'.data.length + (natToDigits cs'.length).length + 3)
                  = '[' :: (serializeList cs'
                      ++ ']' :: (serializeList ts ++ [']'])) := by
                rw [show cp + n'.data.length + (natToDigits cs'.length).length + 3
                    = (cp + 1) + (n'.data.length + (natToDigits cs'.length).length + 2)
                      from by omega]
                rw [drop_shift, hdropcp1]
                have hlen12 : ('|' :: (n'.data ++ '|' :: natToDigits cs'.length)).length
                    = n'.data.length + (natToDigits cs'.length).length + 2 := by
                  simp only [List.length_cons, List.length_append]
                  omega
                rw [List.drop_left' hlen12]
              have hskipbody : ∀ (rr : List Char) (p : Nat) (bal : Int), 1 ≤ bal →
                  bracketScanAux (serializeList cs' ++ rr) p bal true
                    = bracketScanAux rr (p + (serializeList cs').length) bal true :=
                bracketScanAux_skip_list (fun u hu => bracketScanAux_skip_serialize
                  (depthDList cs') u (depthD_mem hu) (wellFormedList_mem hwl' u hu))
              have hscan : bracketScan data
                  (cp + n'.data.length + (natToDigits cs'.length).length + 3)
                  = cp + n'.data.length + (natToDigits cs'.length).length + 3
                    + (serializeList cs').length + 2 :=
                bracketScan_segment hdropb hskipbody
              rw [hscan]
              -- the segment is exactly this child's serialization
              have hdropseg : data.drop cp
                  = ('D' :: '|' :: (n'.data ++ '|' :: (natToDigits cs'.length
                      ++ '[' :: (serializeList cs' ++ [']']))))
                    ++ (serializeList ts ++ [']']) := by
                rw [hdrop]; simp
              have hseg : substr data cp
                  (cp + n'.data.length + (natToDigits cs'.length).length + 3
                    + (serializeList cs').length + 2 - cp)
                  = serialize (.dir n' cs') := by
                unfold substr
                rw [hdropseg, serialize_dir]
                rw [show cp + n'.data.length + (natToDigits cs'.length).length + 3
                    + (serializeList cs').length + 2 - cp
                    = ('D' :: '|' :: (n'.data ++ '|' :: (natToDigits cs'.length
                        ++ '[' :: (serializeList cs' ++ [']'])))).length by
                  simp only [List.length_cons, List.length_append, List.length_nil]
                  omega]
                exact List.take_left _ _
              rw [hseg]
              simp only [hrec n' cs' (List.mem_cons_self _ _)]
              -- recursive call on the remaining siblings
              have hdropnext : data.drop
                  (cp + n'.data.length + (natToDigits cs'.length).length + 3
                    + (serializeList cs').length + 2)
                  = serializeList ts ++ [']'] := by
                rw [show cp + n'.data.length + (natToDigits cs'.length).length + 3
                    + (serializeList cs').length + 2
                    = cp + ('D' :: '|' :: (n'.data ++ '|' :: (natToDigits cs'.length
                        ++ '[' :: (serializeList cs' ++ [']'])))).length from by
                  simp only [List.length_cons, List.length_append, List.length_nil]
                  omega]
                rw [drop_shift, hdropseg, List.drop_left]
              rw [ih data _ (acc ++ [FSNode.dir n' cs']) r hlen hwts hrec' hdropnext hrem']
              simp

theorem serializeList_mem_len {c : FSNode} {cs : List FSNode} (h : c ∈ cs) :
    (serialize c).length ≤ (serializeList cs).length := by
  induction cs with
  | nil => simp at h
  | cons x t ih =>
      rw [serializeList_cons, List.length_append]
      rcases List.mem_cons.mp h with he | h
      · rw [he]; omega
      · have := ih h; omega

/-- `Directory::deserialize` on a directory record whose stated child count
`k` is at least the number of child segments actually present: the header is
parsed, `stoi` returns `k`, and the loop attaches exactly the `cs` present
(silently stopping at the closing `']'` when `k` exceeds them). -/
theorem deserializeD_assembled (n : String) (k : Nat) (cs : List FSNode) (f : Nat)
    (hn : goodName n = true) (hkmax : k ≤ 2147483647)
    (hcs : cs.length ≤ k) (hwl : wellFormedList cs = true)
    (hlen : ('D' :: '|' :: (n.data ++ '|' :: (natToDigits k
        ++ '[' :: (serializeList cs ++ [']'])))).length < npos)
    (hrec : ∀ n' cs', FSNode.dir n' cs' ∈ cs →
      deserializeD f (serialize (.dir n' cs')) = .ok (n', cs')) :
    deserializeD (f + 1) ('D' :: '|' :: (n.data ++ '|' :: (natToDigits k
        ++ '[' :: (serializeList cs ++ [']'])))) = .ok (n, cs) := by
  have hlenN := hlen
  rw [npos_eq] at hlenN
  simp only [List.length_cons, List.length_append, List.length_nil] at hlenN
  have hdk0 : 0 < (natToDigits k).length :=
    List.length_pos.mpr (natToDigits_ne_nil k)
  simp only [deserializeD]
  -- first pipe at index 1
  have hdrop0 : ('D' :: '|' :: (n.data ++ '|' :: (natToDigits k
      ++ '[' :: (serializeList cs ++ [']'])))).drop 0
      = ['D'] ++ '|' :: (n.data ++ '|' :: (natToDigits k
        ++ '[' :: (serializeList cs ++ [']']))) := rfl
  have hfp : cppFind ('D' :: '|' :: (n.data ++ '|' :: (natToDigits k
      ++ '[' :: (serializeList cs ++ [']'])))) '|' 0 = 1 := by
    rw [cppFind_spec hdrop0 (by intro x hx; rcases List.mem_singleton.mp hx with rfl; decide)]
    decide
  rw [hfp]
  have hs1 : succPos 1 = 2 := by
    unfold succPos
    rw [if_neg (ne_npos_of_lt (show 1 < npos by rw [npos_eq]; omega))]
  rw [hs1]
  -- second pipe after the name
  have hdrop2 : ('D' :: '|' :: (n.data ++ '|' :: (natToDigits k
      ++ '[' :: (serializeList cs ++ [']'])))).drop 2
      = n.data ++ '|' :: (natToDigits k ++ '[' :: (serializeList cs ++ [']'])) := rfl
  have hsp2 : cppFind ('D' :: '|' :: (n.data ++ '|' :: (natToDigits k
      ++ '[' :: (serializeList cs ++ [']'])))) '|' 2 = 2 + n.data.length :=
    cppFind_spec hdrop2 (fun x hx => (goodName_spec hn x hx).1)
  rw [hsp2]
  have hs2 : succPos (2 + n.data.length) = 2 + n.data.length + 1 := by
    unfold succPos
    rw [if_neg (ne_npos_of_lt (show 2 + n.data.length < npos by rw [npos_eq]; omega))]
  rw [hs2]
  -- the opening bracket after the count digits
  have hdrop3 : ('D' :: '|' :: (n.data ++ '|' :: (natToDigits k
      ++ '[' :: (serializeList cs ++ [']'])))).drop (2 + n.data.length + 1)
      = natToDigits k ++ '[' :: (serializeList cs ++ [']']) := by
    rw [show 2 + n.data.length + 1 = 2 + (n.data.length + 1) from by omega]
    rw [drop_shift, hdrop2, drop_append_cons_len]
  have hbo : cppFind ('D' :: '|' :: (n.data ++ '|' :: (natToDigits k
      ++ '[' :: (serializeList cs ++ [']'])))) '[' (2 + n.data.length + 1)
      = 2 + n.data.length + 1 + (natToDigits k).length :=
    cppFind_spec hdrop3
      (fun x hx => isDigit_ne (natToDigits_all_digit _ x hx) (by decide))
  rw [hbo]
  rw [if_pos ⟨ne_npos_of_lt (show 2 + n.data.length < npos by rw [npos_eq]; omega),
    ne_npos_of_lt (show 2 + n.data.length + 1 + (natToDigits k).length < npos by
      rw [npos_eq]; omega),
    by omega⟩]
  -- the name field
  rw [show 2 + n.data.length - 2 = n.data.length from by omega]
  have hname : substr ('D' :: '|' :: (n.data ++ '|' :: (natToDigits k
      ++ '[' :: (serializeList cs ++ [']'])))) 2 n.data.length = n.data := by
    unfold substr
    rw [hdrop2]
    exact List.take_left _ _
  rw [hname, string_mk_data]
  -- the count field parses with stoi
  rw [show 2 + n.data.length + 1 + (natToDigits k).length - (2 + n.data.length + 1)
      = (natToDigits k).length from by omega]
  have hcount : substr ('D' :: '|' :: (n.data ++ '|' :: (natToDigits k
      ++ '[' :: (serializeList cs ++ [']'])))) (2 + n.data.length + 1)
      (natToDigits k).length = natToDigits k := by
    unfold substr
    rw [hdrop3]
    exact List.take_left _ _
  rw [hcount]
  have hstoi : cppStoi (natToDigits k) = .ok k := by
    unfold cppStoi
    have := @cppStrtol_natToDigits (-2147483648) 2147483647 k []
      (by norm_num) (by exact_mod_cast hkmax) rfl
    rwa [List.append_nil] at this
  rw [hstoi]
  simp only []
  by_cases hk0 : k = 0
  · subst hk0
    have hcs0 : cs = [] := List.length_eq_zero.mp (by omega)
    subst hcs0
    rw [if_pos (by norm_num)]
  · rw [if_neg (by exact_mod_cast hk0)]
    have htn : ((k : Int)).toNat = k := Int.toNat_natCast k
    rw [htn]
    have hdropbody : ('D' :: '|' :: (n.data ++ '|' :: (natToDigits k
        ++ '[' :: (serializeList cs ++ [']'])))).drop
        (2 + n.data.length + 1 + (natToDigits k).length + 1)
        = serializeList cs ++ [']'] := by
      rw [show 2 + n.data.length + 1 + (natToDigits k).length + 1
          = (2 + n.data.length + 1) + ((natToDigits k).length + 1) from by omega]
      rw [drop_shift, hdrop3, drop_append_cons_len]
    rw [loop_ok (fun seg => deserializeD f seg) cs _ _ [] k hlen hwl hrec hdropbody hcs]
    rw [List.nil_append]

theorem depthD_le_serialize :
    ∀ (M : Nat) (t : FSNode), (serialize t).length ≤ M →
      depthD t ≤ (serialize t).length := by
  intro M
  induction M with
  | zero => intro t h; have := serialize_len t; omega
  | succ M ih =>
      intro t h
      cases t with
      | file n s => rw [depthD_file]; omega
      | dir n cs =>
          rw [depthD_dir]
          have hsz : (serializeList cs).length + 5 ≤ (serialize (.dir n cs)).length := by
            rw [serialize_dir]
            simp only [List.length_cons, List.length_append, List.length_nil]
            have := List.length_pos.mpr (natToDigits_ne_nil cs.length)
            omega
          have hB : ∀ ts : List FSNode, (∀ u ∈ ts, u ∈ cs) →
              depthDList ts ≤ (serializeList ts).length := by
            intro ts hts
            induction ts with
            | nil => simp
            | cons u tl ihl =>
                rw [depthDList_cons, serializeList_cons, List.length_append]
                have hu : depthD u ≤ (serialize u).length := by
                  apply ih
                  have h1 := serializeList_mem_len (hts u (by simp))
                  omega
                have htl := ihl (fun x hx => hts x (by simp [hx]))
                omega
          have := hB cs (fun u hu => hu)
          omega

theorem deserializeD_serialize_dir :
    ∀ (N : Nat) (n : String) (cs : List FSNode) (f : Nat),
      depthDList cs ≤ N →
      depthDList cs ≤ f →
      wellFormed (.dir n cs) = true →
      (serialize (.dir n cs)).length < npos →
      deserializeD (f + 1) (serialize (.dir n cs)) = .ok (n, cs) := by
  intro N
  induction N with
  | zero =>
      intro n cs f hdN hdf hw hlen
      obtain ⟨hn, hcnt, hwl⟩ := wellFormed_dir_parts hw
      rw [serialize_dir] at hlen ⊢
      refine deserializeD_assembled n cs.length cs f hn hcnt (le_refl _) hwl hlen ?_
      intro n' cs' hmem
      have hdc := depthD_mem hmem
      rw [depthD_dir] at hdc
      omega
  | succ N ih =>
      intro n cs f hdN hdf hw hlen
      obtain ⟨hn, hcnt, hwl⟩ := wellFormed_dir_parts hw
      have hbody : (serializeList cs).length + 5 ≤ (serialize (.dir n cs)).length := by
        rw [serialize_dir]
        simp only [List.length_cons, List.length_append, List.length_nil]
        have := List.length_pos.mpr (natToDigits_ne_nil cs.length)
        omega
      rw [serialize_dir] at hlen ⊢
      refine deserializeD_assembled n cs.length cs f hn hcnt (le_refl _) hwl hlen ?_
      intro n' cs' hmem
      have hdc := depthD_mem hmem
      rw [depthD_dir] at hdc
      obtain ⟨f', rfl⟩ : ∃ f', f = f' + 1 := ⟨f - 1, by omega⟩
      refine ih n' cs' f' (by omega) (by omega) (wellFormedList_mem hwl _ hmem) ?_
      have h1 := serializeList_mem_len hmem
      rw [serialize_dir] at hbody
      calc (serialize (FSNode.dir n' cs')).length
      _ ≤ (serializeList cs).length := h1
      _ < _ := by rw [npos_eq] at hlen ⊢; omega

/-- `Directory::deserialize` (as invoked by `main`, with the depth bound
`length + 1`) inverts `Directory::serialize` on well-formed trees. -/
theorem dirDeserialize_serialize {n : String} {cs : List FSNode}
    (hw : wellFormed (.dir n cs) = true)
    (hlen : (serialize (.dir n cs)).length < npos) :
    dirDeserialize (serialize (.dir n cs)) = .ok (n, cs) := by
  unfold dirDeserialize
  have hd : depthDList cs ≤ (serialize (.dir n cs)).length := by
    have := depthD_le_serialize (serialize (.dir n cs)).length (.dir n cs) (le_refl _)
    rw [depthD_dir] at this
    omega
  exact deserializeD_serialize_dir (depthDList cs) n cs (serialize (.dir n cs)).length
    (le_refl _) hd hw hlen

/-! ## Helper lemmas for the claim theorems -/

theorem serializeList_eq_join :
    ∀ cs : List FSNode, serializeList cs = (cs.map serialize).flatten := by
  intro cs
  induction cs with
  | nil => simp
  | cons c t ih => simp [ih]

theorem getSizeList_eq_sum :
    ∀ cs : List FSNode, getSizeList cs = (cs.map getSize).sum := by
  intro cs
  induction cs with
  | nil => simp
  | cons c t ih => simp [ih]

theorem addPtr_foldl_no_none :
    ∀ (ps : List (Option FSNode)) (cs : List (Option FSNode)),
      (∀ x ∈ cs, x ≠ none) → ∀ x ∈ ps.foldl addPtr cs, x ≠ none := by
  intro ps
  induction ps with
  | nil => intro cs hcs x hx; exact hcs x hx
  | cons p pt ih =>
      intro cs hcs x hx
      rw [List.foldl_cons] at hx
      refine ih _ ?_ x hx
      intro y hy
      unfold addPtr at hy
      by_cases hp : p.isSome
      · rw [if_pos hp] at hy
        rcases List.mem_append.mp hy with hy | hy
        · exact hcs y hy
        · rcases List.mem_singleton.mp hy with rfl
          exact Option.isSome_iff_ne_none.mp hp
      · rw [if_neg hp] at hy
        exact hcs y hy

theorem chainDir_wf : ∀ k, wellFormed (chainDir k) = true := by
  intro k
  induction k with
  | zero => rw [chainDir, wellFormed_file]; decide
  | succ k ih =>
      rw [chainDir, wellFormed_dir, wellFormedList_cons, wellFormedList_nil, ih]
      simp only [List.length_singleton]
      rfl

theorem chainDir_len : ∀ k, (serialize (chainDir k)).length = 7 * k + 5 := by
  intro k
  induction k with
  | zero => rw [chainDir]; rfl
  | succ k ih =>
      rw [chainDir, serialize_dir, serializeList_cons, serializeList_nil]
      simp only [List.length_cons, List.length_append, List.length_nil,
        List.append_nil, ih]
      have h1 : (natToDigits (0 + 1)).length = 1 := rfl
      simp only [h1]
      omega

/-! ## Claim theorems -/

/-- Claim C1: round-trip.  For every well-formed tree (no name contains
`|`, `[` or `]`; file sizes are non-negative `long long` values; child
counts fit in `int`; and the serialized string is representable, i.e.
shorter than `npos`), decoding the encoding into a fresh node of the same
variant reproduces the tree exactly — same names, same sizes, same child
order, same nesting — at arbitrary depth (the bracket matching is correct
for any nesting, in particular depth ≥ 50, see the witness). -/
theorem c1_roundtrip_decode (t : FSNode) (hw : wellFormed t = true)
    (hlen : (serialize t).length < npos) :
    decodeFresh t (serialize t) = some t := by
  cases t with
  | file n s =>
      obtain ⟨hn, hs, hs2⟩ := wellFormed_file_parts hw
      simp only [decodeFresh]
      rw [fileDeserialize_serialize "" 0 hn hs hs2]
  | dir n cs =>
      simp only [decodeFresh]
      rw [dirDeserialize_serialize hw hlen]

/-- Claim C1 witness: the round-trip at a concrete chain of 51 nested
directories (depth ≥ 50). -/
theorem c1_roundtrip_decode_witness :
    decodeFresh (chainDir 51) (serialize (chainDir 51)) = some (chainDir 51) :=
  c1_roundtrip_decode (chainDir 51) (chainDir_wf 51)
    (by rw [chainDir_len, npos_eq]; norm_num)

/-- Claim C2 counterexample: `decode("D|x|2[F|a|1]")` (claims 2 children,
contains 1) does NOT signal `MalformedInput`: it returns normally with the
single child that was present — a silently-truncated partial tree. -/
theorem c2_truncation_counterexample :
    dirDeserialize "D|x|2[F|a|1]".toList = .ok ("x", [FSNode.file "a" 1]) := rfl

/-- Claim C2 amended: a directory record whose stated child count `k`
exceeds the number of child segments present is silently truncated — the
decoder returns normally with exactly the children that are present (the
loop `break`s at the closing `']'`), and no error of any kind is
signalled. -/
theorem c2_truncation_amended (n : String) (k : Nat) (cs : List FSNode)
    (hn : goodName n = true) (hkmax : k ≤ 2147483647) (htr : cs.length < k)
    (hwl : wellFormedList cs = true)
    (hlen : ('D' :: '|' :: (n.data ++ '|' :: (natToDigits k
        ++ '[' :: (serializeList cs ++ [']'])))).length < npos) :
    dirDeserialize ('D' :: '|' :: (n.data ++ '|' :: (natToDigits k
        ++ '[' :: (serializeList cs ++ [']'])))) = .ok (n, cs) := by
  unfold dirDeserialize
  refine deserializeD_assembled n k cs _ hn hkmax (by omega) hwl hlen ?_
  intro n' cs' hmem
  have hmlen := serializeList_mem_len hmem
  have hdlen : (serializeList cs).length + 6
      ≤ ('D' :: '|' :: (n.data ++ '|' :: (natToDigits k
        ++ '[' :: (serializeList cs ++ [']'])))).length := by
    simp only [List.length_cons, List.length_append, List.length_nil]
    have := List.length_pos.mpr (natToDigits_ne_nil k)
    omega
  have hdepth : depthD (.dir n' cs') ≤ (serialize (.dir n' cs')).length :=
    depthD_le_serialize _ _ (le_refl _)
  rw [depthD_dir] at hdepth
  obtain ⟨f', hf'⟩ : ∃ f', ('D' :: '|' :: (n.data ++ '|' :: (natToDigits k
      ++ '[' :: (serializeList cs ++ [']'])))).length = f' + 1 :=
    ⟨('D' :: '|' :: (n.data ++ '|' :: (natToDigits k
      ++ '[' :: (serializeList cs ++ [']'])))).length - 1,
      by simp only [List.length_cons]; omega⟩
  rw [hf']
  refine deserializeD_serialize_dir (depthDList cs') n' cs' f' (le_refl _)
    (by omega) (wellFormedList_mem hwl _ hmem) ?_
  rw [npos_eq] at hlen ⊢
  omega

/-- Claim C2 amended witness: the spec's own example input, assembled from
name `x`, stated count `2`, and the single present child `F|a|1`. -/
theorem c2_truncation_amended_witness :
    dirDeserialize ('D' :: '|' :: ("x".data ++ '|' :: (natToDigits 2
        ++ '[' :: (serializeList [FSNode.file "a" 1] ++ [']']))))
      = .ok ("x", [FSNode.file "a" 1]) :=
  c2_truncation_amended "x" 2 [FSNode.file "a" 1] (by decide) (by decide)
    (by decide) (by rw [wellFormedList_cons, wellFormedList_nil, wellFormed_file]; rfl)
    (by
      rw [serializeList_cons, serializeList_nil, serialize_file]
      rw [npos_eq]
      simp only [List.length_cons, List.length_append, List.length_nil,
        show (natToDigits 2).length = 1 from rfl,
        show (intToChars 1).length = 1 from rfl,
        show ("x".data).length = 1 from rfl,
        show ("a".data).length = 1 from rfl]
      omega)

/-- Claim C3 counterexample: an in-place decode of
`"D|x|2[F|c|7D|y|a[]]"` fails (the nested directory's child-count field
`a` makes `stoi` throw), yet the target is left HALF-POPULATED with the
first child `File("c", 7)` — not empty. -/
theorem c3_atomicity_counterexample :
    deserializeInto ("old", [FSNode.file "z" 3]) "D|x|2[F|c|7D|y|a[]]".toList
      = .error ("x", [FSNode.file "c" 7]) := rfl

/-- Claim C3 amended: a failing in-place decode does discard all of the
target's OLD children — the outcome is entirely independent of the prior
state — but the target may be left half-populated with the NEW children
parsed before the failure point, rather than empty. -/
theorem c3_atomicity_amended :
    (∀ (t1 t2 : String × List FSNode) (data : List Char),
      deserializeInto t1 data = deserializeInto t2 data)
    ∧ deserializeInto ("o", [FSNode.file "q" 9]) "D|x|2[F|c|7D|y|a[]]".toList
        = .error ("x", [FSNode.file "c" 7]) :=
  ⟨fun _ _ _ => rfl, rfl⟩

/-- Claim C4: the encoder emits exactly the grammar string
`"D|" + name + "|" + count + "[" + concat(children) + "]"`, and on the
spec's two concrete examples produces exactly the quoted strings. -/
theorem c4_encoder_grammar :
    (∀ (n : String) (cs : List FSNode),
      serialize (.dir n cs)
        = ("D|" ++ n ++ "|").data ++ (natToDigits cs.length
          ++ '[' :: ((cs.map serialize).flatten ++ [']'])))
    ∧ serialize (.dir "empty" []) = "D|empty|0[]".data
    ∧ serialize (.dir "root" [.file "a" 10, .dir "sub" [.file "b" 5], .file "c" 3])
        = "D|root|3[F|a|10D|sub|1[F|b|5]F|c|3]".data := by
  refine ⟨?_, ?_, ?_⟩
  · intro n cs
    rw [serialize_dir, ← serializeList_eq_join]
    simp [String.data_append]
  · rw [serialize_dir, serializeList_nil]
    rfl
  · simp only [serialize_dir, serializeList_cons, serializeList_nil, serialize_file]
    rfl

/-- Claim C5: size derivation — a Directory's size is the sum of its
children's sizes, recursively and computed on demand; an empty Directory
has size 0; a File's size is the stored value. -/
theorem c5_size_derivation :
    (∀ (n : String) (cs : List FSNode), getSize (.dir n cs) = (cs.map getSize).sum)
    ∧ (∀ n : String, getSize (.dir n []) = 0)
    ∧ (∀ (n : String) (s : Int), getSize (.file n s) = s) := by
  refine ⟨?_, ?_, ?_⟩
  · intro n cs
    rw [getSize_dir, getSizeList_eq_sum]
  · intro n
    rw [getSize_dir, getSizeList_nil]
  · intro n s
    rw [getSize_file]

/-- Claim C6: idempotent in-place restore — decoding a valid string into a
target twice yields the same final tree as decoding it once, because the
in-place decode discards the target's children before rebuilding (the
result never depends on the prior state). -/
theorem c6_idempotent_restore (target : String × List FSNode) (data : List Char)
    (r : String × List FSNode) (h : deserializeInto target data = .ok r) :
    deserializeInto r data = .ok r
    ∧ deserializeInto r data = deserializeInto target data := by
  refine ⟨?_, rfl⟩
  rw [← h]
  rfl

/-- Claim C6 witness: restoring `"D|empty|0[]"` into a populated directory
and then restoring again into the result. -/
theorem c6_idempotent_restore_witness :
    deserializeInto ("empty", []) "D|empty|0[]".toList = .ok ("empty", [])
    ∧ deserializeInto ("empty", []) "D|empty|0[]".toList
        = deserializeInto ("old", [FSNode.file "z" 1]) "D|empty|0[]".toList :=
  c6_idempotent_restore ("old", [FSNode.file "z" 1]) "D|empty|0[]".toList
    ("empty", []) rfl

/-- Claim C8 counterexample: `File::deserialize` on `"F|a|-5"` accepts the
NEGATIVE size `-5` without signalling anything, although `-5` does not
parse as a non-negative integer. -/
theorem c8_file_size_counterexample :
    fileDeserialize "x" 0 "F|a|-5".toList = .ok ("a", -5) := rfl

/-- Claim C8 amended: field 2 of a file segment is parsed with `stoll`
semantics: any optionally-signed integer prefix within `long long` range is
accepted — negative sizes and trailing garbage included — and an exception
escapes exactly when `stoll` throws, that is, when no integer prefix exists
(`std::invalid_argument`) or the prefix's value is outside the `long long`
range (`std::out_of_range`, third conjunct: the in-range-syntax field
`9223372036854775808` still throws); by then the name has already been
overwritten.  On success the File holds the parsed name and the parsed
(possibly negative) size; a File has no children and only the given segment
is read. -/
theorem c8_file_size_amended (nm : String) (sz : Int) (n s : List Char)
    (hn : '|' ∉ n) (hs : s ≠ []) (hnl : '\n' ∉ s) :
    (∀ e : Unit, cppStoll s = .error e →
      fileDeserialize nm sz ('F' :: '|' :: (n ++ '|' :: s))
        = .error (String.mk n, sz))
    ∧ (∀ v : Int, cppStoll s = .ok v →
      fileDeserialize nm sz ('F' :: '|' :: (n ++ '|' :: s))
        = .ok (String.mk n, v))
    ∧ fileDeserialize "x" 0 "F|a|9223372036854775808".toList
        = .error ("a", 0) := by
  have hname : (n ++ '|' :: s).takeWhile (fun c => c != '|') = n :=
    takeWhile_append_cons _ _
      (fun x hx => by simp only [bne_iff_ne, ne_eq]; exact fun he => hn (he ▸ hx))
      (by decide)
  have hsizestr : s.takeWhile (fun c => c != '\n') = s :=
    takeWhile_of_all (fun x hx => by
      simp only [bne_iff_ne, ne_eq]; exact fun he => hnl (he ▸ hx))
  refine ⟨?_, ?_, rfl⟩
  · intro e he
    unfold fileDeserialize
    rw [if_neg (by simp only [List.length_cons]; omega)]
    have hdrop2 : ('F' :: '|' :: (n ++ '|' :: s)).drop 2 = n ++ '|' :: s := rfl
    simp only [hdrop2, hname, drop_append_cons_len, hsizestr]
    rw [if_pos ⟨List.mem_append_right _ (List.mem_cons_self _ _), hs⟩]
    rw [he]
  · intro v hv
    unfold fileDeserialize
    rw [if_neg (by simp only [List.length_cons]; omega)]
    have hdrop2 : ('F' :: '|' :: (n ++ '|' :: s)).drop 2 = n ++ '|' :: s := rfl
    simp only [hdrop2, hname, drop_append_cons_len, hsizestr]
    rw [if_pos ⟨List.mem_append_right _ (List.mem_cons_self _ _), hs⟩]
    rw [hv]

/-- Claim C8 amended witness: the well-formed segment `F|a|7`. -/
theorem c8_file_size_amended_witness :
    fileDeserialize "x" 0 ('F' :: '|' :: (['a'] ++ '|' :: ['7']))
      = .ok (String.mk ['a'], 7) :=
  (c8_file_size_amended "x" 0 ['a'] ['7'] (by decide) (by decide) (by decide)).2.1
    7 rfl

/-- Claim C10 counterexample: on the 1-character input `"F"` the call
`data.substr(2)` throws `std::out_of_range`, so `File::deserialize` does
NOT return normally — the claim fails for inputs shorter than 2. -/
theorem c10_file_noop_counterexample :
    fileDeserialize "n" 5 ['F'] = .error ("n", 5) := rfl

/-- Claim C10 amended: for every input of length at least 2 whose content
after the first two characters does not contain a `'|'` followed by a
non-empty remainder (the size field), `File::deserialize` returns normally
without signalling any error and leaves both the name and the size
unchanged. -/
theorem c10_file_noop_amended (nm : String) (sz : Int) (data : List Char)
    (hlen : 2 ≤ data.length)
    (hcond : ¬('|' ∈ data.drop 2 ∧
      (data.drop 2).drop
        (((data.drop 2).takeWhile (fun c => c != '|')).length + 1) ≠ [])) :
    fileDeserialize nm sz data = .ok (nm, sz) := by
  unfold fileDeserialize
  rw [if_neg (by omega), if_neg hcond]

/-- Claim C10 amended witness: `"F|onlyname"` (no size field) is a silent
no-op. -/
theorem c10_file_noop_amended_witness :
    fileDeserialize "x" 7 "F|onlyname".toList = .ok ("x", 7) :=
  c10_file_noop_amended "x" 7 "F|onlyname".toList (by decide) (by decide)

/-- Claim C9: null-append is a no-op — `Directory::add` ignores a null
component, so a child vector populated exclusively through `add` never
contains a null pointer. -/
theorem c9_null_append :
    (∀ cs : List (Option FSNode), addPtr cs none = cs)
    ∧ (∀ (ps : List (Option FSNode)) (x : Option FSNode),
        x ∈ ps.foldl addPtr [] → x ≠ none) := by
  constructor
  · intro cs
    unfold addPtr
    rw [if_neg (by simp)]
  · intro ps x hx
    exact addPtr_foldl_no_none ps [] (by simp) x hx

/-- Claim C9 witness: adding a null then a real component. -/
theorem c9_null_append_witness :
    (addPtr [] none = []) ∧ (some (FSNode.file "a" 1) ≠ none) :=
  ⟨c9_null_append.1 [], c9_null_append.2 [none, some (.file "a" 1)]
    (some (.file "a" 1)) (by
      simp only [List.foldl_cons, List.foldl_nil]
      rw [show addPtr [] none = [] from c9_null_append.1 []]
      unfold addPtr
      simp)⟩

/-! ## Head-character irrelevance: the tag byte is never inspected -/

theorem digitScanAux_ge : ∀ (l : List Char) (pos : Nat), pos ≤ digitScanAux l pos := by
  intro l
  induction l with
  | nil => intro pos; simp [digitScanAux]
  | cons x t ih =>
      intro pos
      by_cases h : x.isDigit
      · simp only [digitScanAux, if_pos h]
        have := ih (pos + 1)
        omega
      · simp [digitScanAux, h]

theorem bracketScanAux_ge :
    ∀ (l : List Char) (pos : Nat) (bal : Int) (found : Bool),
      pos ≤ bracketScanAux l pos bal found := by
  intro l
  induction l with
  | nil => intro pos bal found; simp [bracketScanAux]
  | cons x t ih =>
      intro pos bal found
      simp only [bracketScanAux]
      by_cases hstop : ((found || (x == '[')) = true
          ∧ (if x = '[' then bal + 1 else if x = ']' then bal - 1 else bal) = 0)
      · rw [if_pos hstop]; omega
      · rw [if_neg hstop]
        have := ih (pos + 1)
          (if x = '[' then bal + 1 else if x = ']' then bal - 1 else bal)
          (found || (x == '['))
        omega

theorem digitScan_ge (data : List Char) (pos : Nat) : pos ≤ digitScan data pos :=
  digitScanAux_ge _ _

theorem bracketScan_ge (data : List Char) (pos : Nat) : pos ≤ bracketScan data pos :=
  bracketScanAux_ge _ _ _ _

theorem cppFind_ge {data : List Char} {ch : Char} {start : Nat} :
    start ≤ cppFind data ch start ∨ cppFind data ch start = npos := by
  unfold cppFind
  cases findIdxFrom (fun x => x == ch) (data.drop start) with
  | none => exact .inr rfl
  | some j =>
      left
      show start ≤ start + j
      omega

theorem drop_cons_eq_of_ge (c d : Char) (rest : List Char) {p : Nat} (hp : 1 ≤ p) :
    (c :: rest).drop p = (d :: rest).drop p := by
  obtain ⟨q, rfl⟩ : ∃ q, p = q + 1 := ⟨p - 1, by omega⟩
  simp [List.drop_succ_cons]

theorem cppFind_cons_eq (c d : Char) (rest : List Char) (ch : Char) {start : Nat}
    (hs : 1 ≤ start) :
    cppFind (c :: rest) ch start = cppFind (d :: rest) ch start := by
  unfold cppFind
  rw [drop_cons_eq_of_ge c d rest hs]

theorem getD_cons_eq (c d : Char) (rest : List Char) {p : Nat} (hp : 1 ≤ p)
    (x : Char) : (c :: rest).getD p x = (d :: rest).getD p x := by
  obtain ⟨q, rfl⟩ : ∃ q, p = q + 1 := ⟨p - 1, by omega⟩
  simp [List.getD_cons_succ]

theorem substr_cons_eq (c d : Char) (rest : List Char) {p : Nat} (cnt : Nat)
    (hp : 1 ≤ p) : substr (c :: rest) p cnt = substr (d :: rest) p cnt := by
  unfold substr
  rw [drop_cons_eq_of_ge c d rest hp]

theorem digitScan_cons_eq (c d : Char) (rest : List Char) {p : Nat} (hp : 1 ≤ p) :
    digitScan (c :: rest) p = digitScan (d :: rest) p := by
  unfold digitScan
  rw [drop_cons_eq_of_ge c d rest hp]

theorem bracketScan_cons_eq (c d : Char) (rest : List Char) {p : Nat} (hp : 1 ≤ p) :
    bracketScan (c :: rest) p = bracketScan (d :: rest) p := by
  unfold bracketScan
  rw [drop_cons_eq_of_ge c d rest hp]

theorem findIdxFrom_lt_length {p : Char → Bool} :
    ∀ {l : List Char} {j : Nat}, findIdxFrom p l = some j → j < l.length := by
  intro l
  induction l with
  | nil => intro j h; simp [findIdxFrom] at h
  | cons x t ih =>
      intro j h
      simp only [findIdxFrom] at h
      by_cases hx : p x
      · rw [if_pos hx] at h
        injection h with h
        rw [← h]
        simp
      · rw [if_neg hx] at h
        cases hf : findIdxFrom p t with
        | none =>
            rw [hf] at h
            exact absurd h (by rw [show Option.map (fun y => y + 1) (none : Option Nat)
              = none from rfl]; simp)
        | some j' =>
            rw [hf] at h
            rw [show Option.map (fun y => y + 1) (some j') = some (j' + 1) from rfl] at h
            injection h with h
            have := ih hf
            simp only [List.length_cons]
            omega

theorem mem_findIdxFrom {x : Char} :
    ∀ {l : List Char}, x ∈ l → ∃ j, findIdxFrom (fun y => y == x) l = some j := by
  intro l
  induction l with
  | nil => intro h; simp at h
  | cons y t ih =>
      intro h
      by_cases hy : (y == x)
      · exact ⟨0, by simp [findIdxFrom, hy]⟩
      · have hx : x ∈ t := by
          rcases List.mem_cons.mp h with he | ht
          · exact absurd (by simp [he]) hy
          · exact ht
        obtain ⟨j, hj⟩ := ih hx
        exact ⟨j + 1, by simp [findIdxFrom, hy, hj]⟩

theorem digitScan_cons_eq_mix (c d : Char) (rest : List Char) (P : Prop)
    [Decidable P] (a : Nat) :
    digitScan (c :: rest) (if P then a + 1 else (c :: rest).length)
      = digitScan (d :: rest) (if P then a + 1 else (d :: rest).length) := by
  by_cases h : P
  · rw [if_pos h, if_pos h]
    exact digitScan_cons_eq c d rest (by omega)
  · rw [if_neg h, if_neg h]
    unfold digitScan
    rw [List.drop_length, List.drop_length]
    simp [digitScanAux]

theorem bracketScan_cons_eq_mix (c d : Char) (rest : List Char) (P : Prop)
    [Decidable P] (a : Nat) (ha : 1 ≤ a) :
    bracketScan (c :: rest) (if P then a else (c :: rest).length)
      = bracketScan (d :: rest) (if P then a else (d :: rest).length) := by
  by_cases h : P
  · rw [if_pos h, if_pos h]
    exact bracketScan_cons_eq c d rest ha
  · rw [if_neg h, if_neg h]
    unfold bracketScan
    rw [List.drop_length, List.drop_length]
    simp [bracketScanAux]

theorem one_le_ite_succ (P : Prop) [Decidable P] (a : Nat) (x : Char) (l : List Char) :
    1 ≤ if P then a + 1 else (x :: l).length := by
  split
  · omega
  · simp

theorem one_le_cppFind {data : List Char} {ch : Char} {start : Nat}
    (h : 1 ≤ start) : 1 ≤ cppFind data ch start := by
  rcases @cppFind_ge data ch start with h' | h'
  · omega
  · rw [h', npos_eq]; omega

theorem one_le_ite_find (P : Prop) [Decidable P] {a : Nat} (ha : 1 ≤ a)
    (x : Char) (l : List Char) :
    1 ≤ if P then a else (x :: l).length := by
  split
  · exact ha
  · simp

theorem loopW_cons_eq
    (recur : List Char → Except (String × List FSNode) (String × List FSNode))
    (c d : Char) (rest : List Char) :
    ∀ (rem cp : Nat) (acc : List FSNode), 1 ≤ cp →
      deserializeLoopW recur (c :: rest) rem cp acc
        = deserializeLoopW recur (d :: rest) rem cp acc := by
  intro rem
  induction rem with
  | zero => intro cp acc _; rfl
  | succ r ih =>
      intro cp acc hcp
      simp only [deserializeLoopW]
      rw [getD_cons_eq c d rest hcp ' ']
      rw [cppFind_cons_eq c d rest '|' (show 1 ≤ cp + 1 by omega)]
      rw [cppFind_cons_eq c d rest '[' (show 1 ≤ cp + 1 by omega)]
      rw [cppFind_cons_eq c d rest '|'
        (show 1 ≤ cppFind (d :: rest) '|' (cp + 1) + 1 by omega)]
      rw [digitScan_cons_eq_mix c d rest _ _]
      rw [bracketScan_cons_eq_mix c d rest _ _ (by
        rcases @cppFind_ge (d :: rest) '[' (cp + 1) with h | h
        · omega
        · rw [h, npos_eq]; omega)]
      rw [show (c :: rest).length = (d :: rest).length from by simp]
      rw [substr_cons_eq c d rest _ hcp]
      rw [substr_cons_eq c d rest _ hcp]
      split
      · rfl
      split
      · rfl
      split
      · split
        · rfl
        · exact ih _ _ (le_trans (one_le_ite_succ _ _ _ _) (digitScan_ge _ _))
      · split
        · split
          · rfl
          · exact ih _ _ (le_trans
              (one_le_ite_find _ (one_le_cppFind (by omega)) _ _)
              (bracketScan_ge _ _))
        · rfl

theorem deserializeD_cons_eq (fuel : Nat) (c d : Char) (rest : List Char)
    (hc : c ≠ '|') (hd : d ≠ '|') (hmem : '|' ∈ rest) (hlen : rest.length < npos) :
    deserializeD fuel (c :: rest) = deserializeD fuel (d :: rest) := by
  have hlenN := hlen
  rw [npos_eq] at hlenN
  cases fuel with
  | zero => rfl
  | succ f =>
      simp only [deserializeD]
      obtain ⟨i, hi⟩ := mem_findIdxFrom hmem
      have hiL := findIdxFrom_lt_length hi
      have hfpc : cppFind (c :: rest) '|' 0 = i + 1 := by
        unfold cppFind
        rw [List.drop_zero]
        have h1 : findIdxFrom (fun x => x == '|') (c :: rest) = some (i + 1) := by
          simp only [findIdxFrom, show ((c == '|') = false) from by
            simp only [beq_eq_false_iff_ne]; exact hc, Bool.false_eq_true, if_false, hi]
          rfl
        rw [h1]
        show 0 + (i + 1) = i + 1
        omega
      have hfpd : cppFind (d :: rest) '|' 0 = i + 1 := by
        unfold cppFind
        rw [List.drop_zero]
        have h1 : findIdxFrom (fun x => x == '|') (d :: rest) = some (i + 1) := by
          simp only [findIdxFrom, show ((d == '|') = false) from by
            simp only [beq_eq_false_iff_ne]; exact hd, Bool.false_eq_true, if_false, hi]
          rfl
        rw [h1]
        show 0 + (i + 1) = i + 1
        omega
      rw [hfpc, hfpd]
      have hsucc : succPos (i + 1) = i + 1 + 1 := by
        unfold succPos
        rw [if_neg (ne_npos_of_lt (show i + 1 < npos by rw [npos_eq]; omega))]
      rw [hsucc]
      rw [cppFind_cons_eq c d rest '|' (show 1 ≤ i + 1 + 1 by omega)]
      by_cases hsp : cppFind (d :: rest) '|' (i + 1 + 1) = npos
      · rw [hsp]
        simp only [ne_eq, eq_self_iff_true, not_true, false_and, if_false]
        rw [substr_cons_eq c d rest _ (show 1 ≤ i + 1 + 1 by omega)]
      · have hsuccSP : succPos (cppFind (d :: rest) '|' (i + 1 + 1))
            = cppFind (d :: rest) '|' (i + 1 + 1) + 1 := by
          unfold succPos
          rw [if_neg hsp]
        rw [hsuccSP]
        rw [cppFind_cons_eq c d rest '['
          (show 1 ≤ cppFind (d :: rest) '|' (i + 1 + 1) + 1 by omega)]
        rw [substr_cons_eq c d rest _ (show 1 ≤ i + 1 + 1 by omega)]
        rw [substr_cons_eq c d rest _
          (show 1 ≤ cppFind (d :: rest) '|' (i + 1 + 1) + 1 by omega)]
        split
        · split
          · rfl
          · split
            · rfl
            · rw [loopW_cons_eq (fun seg => deserializeD f seg) c d rest _ _ []
                (by omega)]
        · rfl

/-- Claim C7 counterexample: the input `"X|n|0[]"` starts with a tag that is
neither `F` nor `D`, yet `Directory::deserialize` does not signal anything:
the top-level tag character is never even read, and the call returns
normally with name `n`. -/
theorem c7_tag_validation_counterexample :
    dirDeserialize "X|n|0[]".toList = .ok ("n", []) := rfl

/-- Claim C7 amended: the decoder never validates tags.  At top level the
tag byte is not inspected at all: for inputs containing a `'|'` after the
first character, replacing the leading character by any other non-`'|'`
character leaves the result unchanged.  At child level, a tag that is
neither `F` nor `D` silently ends the child loop, returning the children
parsed so far — no `MalformedInput` is signalled in either case. -/
theorem c7_tag_validation_amended :
    (∀ (fuel : Nat) (c d : Char) (rest : List Char), c ≠ '|' → d ≠ '|' →
      '|' ∈ rest → rest.length < npos →
      deserializeD fuel (c :: rest) = deserializeD fuel (d :: rest))
    ∧ dirDeserialize "D|x|1[Zq]".toList = .ok ("x", []) :=
  ⟨fun fuel c d rest hc hd hmem hlen =>
    deserializeD_cons_eq fuel c d rest hc hd hmem hlen, rfl⟩

/-- Claim C7 amended witness: replacing the `D` tag of `"D|n|0[]"` by `X`
gives the identical decode result. -/
theorem c7_tag_validation_amended_witness :
    deserializeD 8 ('X' :: "|n|0[]".toList) = deserializeD 8 ('D' :: "|n|0[]".toList) :=
  c7_tag_validation_amended.1 8 'X' 'D' "|n|0[]".toList (by decide) (by decide)
    (by decide) (by rw [npos_eq]; decide)

end FsSer
